import Mathlib

/-!
Verification of the `jukebox-tpu` repository against its specification.

Part 1: a shallow embedding of `converttpu.py`, the bracket-scoped call-site
patcher.  Texts are `List Char`; the Python string primitives `count`, `find`
(`index`), `replace`, slicing and insertion are translated below; the script's
per-occurrence loop (lines 20–40), the depth scan (lines 24–27) and the final
global replace (line 42) are translated function by function.

Part 2 (namespace `TBX`): a shallow embedding of the `SummaryWriter` facade in
`tensorboardX/writer.py`: `_get_file_writer`, `close`, `flush`, the recording
operations, and the precondition checks of `add_histogram_raw`,
`add_image_with_boxes` and `add_embedding`.
-/

namespace ConvertTpu

/-- The marker literal inserted after each matched call (`insert` in the script,
line 10). -/
def insertStr : List Char := ".contiguous()".data

/-- `pivot = '.' + prefix + '('` (line 16). -/
def pivotOf (name : List Char) : List Char := '.' :: (name ++ ['('])

/-- The pivot for the first target name `view`. -/
def viewPivot : List Char := pivotOf "view".data

/-- The pivot for the second target name `reshape`. -/
def reshapePivot : List Char := pivotOf "reshape".data

/-- Helper for `pyFind`: scan a suffix of the text, returning the absolute index
of the first position where `pat` begins.  Mirrors CPython's left-to-right
substring search. -/
def findAux (pat : List Char) : List Char → Nat → Option Nat
  | [], i => if pat = [] then some i else none
  | c :: t, i => if pat.isPrefixOf (c :: t) then some i else findAux pat t (i + 1)

/-- Python `text.find(pat, start)` (and `text.index`, whose `ValueError` is
modelled as `none` at call sites): the least `i ≥ start` with `pat` a prefix of
`text[i:]`.  A `start` beyond the end of the text yields `none` for nonempty
`pat`, as in Python. -/
def pyFind (pat s : List Char) (start : Nat) : Option Nat :=
  findAux pat (s.drop start) start

/-- Fuel-driven body of Python `text.count(pat)` for nonempty `pat`:
non-overlapping occurrences counted left to right, skipping the whole pattern
after each match.  `fuel = text.length` always suffices because every step
consumes at least one character. -/
def countF (pat : List Char) : Nat → List Char → Nat
  | 0, _ => 0
  | _ + 1, [] => 0
  | fuel + 1, c :: t =>
    if pat.isPrefixOf (c :: t) then countF pat fuel (t.drop (pat.length - 1)) + 1
    else countF pat fuel t

/-- Python `text.count(pat)` for the nonempty patterns used by the script. -/
def pyCount (pat s : List Char) : Nat := countF pat s.length s

/-- Fuel-driven body of Python `text.replace(old, new)` for nonempty `old`:
every non-overlapping occurrence, left to right. -/
def replaceF (pat new : List Char) : Nat → List Char → List Char
  | 0, s => s
  | _ + 1, [] => []
  | fuel + 1, c :: t =>
    if pat.isPrefixOf (c :: t) then new ++ replaceF pat new fuel (t.drop (pat.length - 1))
    else c :: replaceF pat new fuel t

/-- Python `text.replace(old, new)` for the nonempty patterns used by the
script (line 42). -/
def pyReplace (pat new s : List Char) : List Char := replaceF pat new s.length s

/-- The depth-scan loop of lines 24–27: `cnt` starts at 1 just after the
opening parenthesis; each `'('` increments and each `')'` decrements it; the
loop breaks at the first index `k` where `cnt` reaches 0.  Returns `some k` on
break, `none` when the loop runs off the end of the slice without breaking. -/
def scanAux : Int → Nat → List Char → Option Nat
  | _, _, [] => none
  | cnt, k, c :: rest =>
    let cnt1 := if c = '(' then cnt + 1 else cnt
    let cnt2 := if c = ')' then cnt1 - 1 else cnt1
    if cnt2 = 0 then some k else scanAux cnt2 (k + 1) rest

/-- Python error outcomes reachable in the script body. -/
inductive PyErr
  | nameError
  | valueError
deriving DecidableEq

/-- The script's loop state: the current text, the search cursor `subject`, the
last value bound to the loop variable `k` (`none` before any scan-loop body has
run — referencing it then is Python's `NameError`) and the `rep` flag. -/
structure St where
  text : List Char
  subject : Nat
  lastK : Option Nat
  rep : Bool
deriving DecidableEq

/-- One iteration of the per-occurrence loop (lines 20–40) for a given pivot:
locate the next occurrence (`text.index(pivot, subject)`), run the depth scan
on the slice after the opening parenthesis, compute
`insert_idx = subject + k + 1`, and insert the marker there unless it already
begins at exactly that offset.  When the slice is empty the loop body never
runs and `k` keeps its previous binding (or is unbound: `NameError`). -/
def stepOcc (pivot : List Char) (st : St) : Except PyErr St :=
  match pyFind pivot st.text st.subject with
  | none => .error .valueError
  | some idx =>
    let subject := idx + pivot.length
    let slice := st.text.drop subject
    let kNow : Option Nat :=
      match scanAux 1 0 slice with
      | some k => some k
      | none => if slice.isEmpty then st.lastK else some (slice.length - 1)
    match kNow with
    | none => .error .nameError
    | some k =>
      let insertIdx := subject + k + 1
      let tmpidx : Int :=
        match pyFind insertStr st.text insertIdx with
        | some j => (j : Int)
        | none => -1
      if tmpidx = (insertIdx : Int) then
        .ok ⟨st.text, subject, some k, st.rep⟩
      else
        .ok ⟨st.text.take insertIdx ++ insertStr ++ st.text.drop insertIdx,
             subject, some k, true⟩

/-- `for i in range(amnt)` around `stepOcc`. -/
def runIters (pivot : List Char) : Nat → St → Except PyErr St
  | 0, st => .ok st
  | n + 1, st => stepOcc pivot st >>= runIters pivot n

/-- Lines 15–21 and the occurrence loop, for one element of `prefixes`:
`subject` is reset to 0, `amnt = text.count(pivot)` is taken on the current
text, then the occurrence loop runs `amnt` times. -/
def namePass (name : List Char) (st : St) : Except PyErr St :=
  runIters (pivotOf name) (pyCount (pivotOf name) st.text)
    ⟨st.text, 0, st.lastK, st.rep⟩

/-- The whole per-file transform: the `view` pass, the `reshape` pass, then the
unconditional global replace of line 42 (`.view(` to `.reshape(`).  The `rep`
component of the final state is computed throughout but never consulted. -/
def patchSt (st : St) : Except PyErr St :=
  (namePass "view".data st >>= namePass "reshape".data).map
    (fun st2 => ⟨pyReplace viewPivot reshapePivot st2.text, st2.subject, st2.lastK, st2.rep⟩)

/-- Patching one file's text starting from the script's initial state
(`subject` unset, `k` unbound, `rep = False`). -/
def patchText (t : List Char) : Except PyErr (List Char) :=
  (patchSt ⟨t, 0, none, false⟩).map St.text

/-- Python identifier-constituent characters, for the token-boundary discussion
in the spec (a lexical boundary check would require the character before a
matched name not to satisfy this). -/
def isIdentChar (c : Char) : Bool := c.isAlphanum || c = '_'

/-- The value of the scan counter after consuming the first `n` characters of
the slice: `1` plus the opening minus the closing parentheses seen so far. -/
def cntAfter (s : List Char) (n : Nat) : Int :=
  1 + ((s.take n).count '(' : Int) - ((s.take n).count ')' : Int)

/-- A text consisting of successive top-level calls to the pivot: each segment
`(arg, gap)` contributes `pivot ++ arg ++ ')' ++ gap`. -/
def callsText (piv : List Char) : List (List Char × List Char) → List Char
  | [] => []
  | (arg, gap) :: rest => piv ++ arg ++ ')' :: (gap ++ callsText piv rest)

/-- The same text with the marker inserted immediately after each call's
matching close parenthesis. -/
def callsPatched (piv : List Char) : List (List Char × List Char) → List Char
  | [] => []
  | (arg, gap) :: rest => piv ++ arg ++ ')' :: (insertStr ++ gap ++ callsPatched piv rest)

/-- An argument list is depth-balanced: the scan started just after the call's
opening parenthesis stops exactly at the call's own close parenthesis. -/
def BalancedArg (arg : List Char) : Prop :=
  scanAux 1 0 (arg ++ [')']) = some arg.length

/-- Side conditions on a pivot (satisfied by both `.view(` and `.reshape(`,
checked by `decide`): it is nonempty, has no nontrivial border, does not occur
inside the marker, and no nonempty proper suffix (resp. prefix) of it is a
prefix (resp. suffix) of the marker.  These are exactly the facts needed to
show that occurrences of the pivot can neither overlap each other nor touch an
inserted marker. -/
def PivOk (piv : List Char) : Prop :=
  piv ≠ [] ∧
  piv.length ≤ insertStr.length ∧
  (∀ l, l < piv.length → 0 < l → piv.take l ≠ piv.drop (piv.length - l)) ∧
  pyFind piv insertStr 0 = none ∧
  (∀ b, b < piv.length → 0 < b → piv.drop (piv.length - b) ≠ insertStr.take b) ∧
  (∀ a, a < piv.length → 0 < a → piv.take a ≠ insertStr.drop (insertStr.length - a))

/-- Well-formedness of a segment list for a pivot: each argument is balanced,
the window from just after a call's opening parenthesis up to the next call
contains no pivot occurrence, and the marker does not already sit after the
call's close parenthesis. -/
def SaneTail (piv : List Char) : List (List Char × List Char) → Prop
  | [] => True
  | (arg, gap) :: rest =>
    BalancedArg arg ∧
    pyFind piv (arg ++ ')' :: gap) 0 = none ∧
    ¬ insertStr.isPrefixOf (gap ++ callsText piv rest) ∧
    SaneTail piv rest

instance balancedArgDecidable (arg : List Char) : Decidable (BalancedArg arg) :=
  inferInstanceAs (Decidable (_ = _))

instance pivOkDecidable (piv : List Char) : Decidable (PivOk piv) :=
  inferInstanceAs (Decidable (_ ∧ _ ∧ _ ∧ _ ∧ _ ∧ _))

instance saneTailDecidable (piv : List Char) :
    ∀ segs, Decidable (SaneTail piv segs)
  | [] => inferInstanceAs (Decidable True)
  | (_, _) :: rest => by
    have := saneTailDecidable piv rest
    unfold SaneTail
    infer_instance

end ConvertTpu

namespace TBX

/-- Abstract event/summary records routed to the underlying event file writer.
The binary payloads are owned by the external protocol; only the data the
facade itself inspects or builds is modelled. -/
inductive Record
  | fileVersion (step : Int)
  | sessionStart (step : Int)
  | scalar (tag : String) (value : Int) (step : Option Int)
  | histogramRaw (tag : String) (limits counts : List Int) (step : Option Int)
  | imageBoxes (tag : String) (boxCount : Nat) (labels : Option (List String))
      (step : Option Int)
deriving DecidableEq

/-- A `FileWriter` (or `DummyFileWriter`, flagged by `isDummy`): records are
buffered in `pending`; `flush` moves them to `flushed` (on disk); `close`
flushes and closes the event file.  A dummy writer discards everything. -/
structure FileWriter where
  logdir : String
  isDummy : Bool
  pending : List Record
  flushed : List Record
  closed : Bool
deriving DecidableEq

/-- `FileWriter.add_summary` / `add_event`: append to the buffer (`DummyFileWriter`
drops the record). -/
def FileWriter.addSummary (w : FileWriter) (r : Record) : FileWriter :=
  if w.isDummy then w else { w with pending := w.pending ++ [r] }

/-- `FileWriter.flush`: all pending records reach disk. -/
def FileWriter.doFlush (w : FileWriter) : FileWriter :=
  { w with pending := [], flushed := w.flushed ++ w.pending }

/-- `FileWriter.close`: flush, then close the event file. -/
def FileWriter.doClose (w : FileWriter) : FileWriter :=
  { w.doFlush with closed := true }

/-- `SummaryWriter` state: the default writer and the writer map are either
both live or both `None` (cleared by `close`, recreated on demand);
`purgeStep` models `kwargs['purge_step']`, which is popped when the writer is
first recreated; `diskFiles` ghost-records the final states of released
writers (the event files left behind). -/
structure SummaryWriter where
  logdir : String
  writeToDisk : Bool
  purgeStep : Option Int
  fileWriter : Option FileWriter
  allWriters : Option (List (String × FileWriter))
  diskFiles : List FileWriter
deriving DecidableEq

/-- The writer created by `_get_file_writer` when none is live: with a pending
`purge_step` it immediately receives the `brain.Event:2` file-version event and
a `SessionLog.START` event. -/
def freshWriter (logdir : String) (purge : Option Int) : FileWriter :=
  match purge with
  | some step => ⟨logdir, false, [.fileVersion step, .sessionStart step], [], false⟩
  | none => ⟨logdir, false, [], [], false⟩

/-- `SummaryWriter._get_file_writer` (writer.py lines 297–323): return the live
default writer, recreating it (and the writer map) if either reference is
`None`; with `write_to_disk` unset, install a dummy writer instead. -/
def SummaryWriter.getFileWriter (s : SummaryWriter) : SummaryWriter × FileWriter :=
  if s.writeToDisk = false then
    let fw : FileWriter := ⟨s.logdir, true, [], [], false⟩
    ({ s with fileWriter := some fw, allWriters := some [(s.logdir, fw)] }, fw)
  else
    match s.allWriters, s.fileWriter with
    | some _, some fw => (s, fw)
    | _, _ =>
      let fw := freshWriter s.logdir s.purgeStep
      ({ s with purgeStep := none, fileWriter := some fw,
                allWriters := some [(s.logdir, fw)] }, fw)

/-- The shape shared by the facade recording operations:
`self._get_file_writer().add_summary(record, global_step, walltime)`.  The
mutation of the (aliased) writer object is visible through both references. -/
def SummaryWriter.recordOp (s : SummaryWriter) (r : Record) : SummaryWriter :=
  let p := s.getFileWriter
  let fw2 := p.2.addSummary r
  { p.1 with fileWriter := some fw2, allWriters := some [(p.1.logdir, fw2)] }

/-- `SummaryWriter.add_scalar` (lines 361–388), the Caffe2 blob fetch aside. -/
def SummaryWriter.addScalar (s : SummaryWriter) (tag : String) (v : Int)
    (step : Option Int) : SummaryWriter :=
  s.recordOp (.scalar tag v step)

/-- `SummaryWriter.close` (lines 1047–1053): `None` writer map means already
closed — return at once; otherwise flush and close every writer, then clear
both references. -/
def SummaryWriter.close (s : SummaryWriter) : SummaryWriter :=
  match s.allWriters with
  | none => s
  | some ws =>
    { s with fileWriter := none, allWriters := none,
             diskFiles := s.diskFiles ++ ws.map (fun p => (p.2.doFlush).doClose) }

/-- Python exception outcomes of the facade operations. -/
inductive FacadeErr
  | valueError
  | assertionError
deriving DecidableEq

/-- `add_histogram_raw` (lines 481–534): raises `ValueError` when
`len(bucket_limits) != len(bucket_counts)`, otherwise forwards one summary. -/
def SummaryWriter.addHistogramRaw (s : SummaryWriter) (tag : String)
    (limits counts : List Int) (step : Option Int) :
    Except FacadeErr SummaryWriter :=
  if limits.length ≠ counts.length then .error .valueError
  else .ok (s.recordOp (.histogramRaw tag limits counts step))

/-- `add_image_with_boxes` (lines 642–672): a label list whose length differs
from the number of boxes is not an error — the code logs a warning, sets
`labels = None` and proceeds.  The Bool in the result records whether the
warning was emitted.  (`boxCount` is `box_tensor.shape[0]`; a bare string
label has already been wrapped into a one-element list as the code does.) -/
def SummaryWriter.addImageWithBoxes (s : SummaryWriter) (tag : String)
    (boxCount : Nat) (labels : Option (List String)) (step : Option Int) :
    Except FacadeErr (SummaryWriter × Bool) :=
  let lw : Option (List String) × Bool :=
    match labels with
    | some ls => if ls.length ≠ boxCount then (none, true) else (some ls, false)
    | none => (none, false)
  .ok (s.recordOp (.imageBoxes tag boxCount lw.1 step), lw.2)

/-- `add_embedding` (lines 806–866), shapes abstracted: `matShape` is
`mat.shape` and `labelImgShape` is `label_img.shape`; the filesystem side
effects (`make_tsv`, `make_sprite`, `make_mat`, `append_pbtxt`) are external.
The three `assert` statements are translated in source order; a failing
`assert` is Python's `AssertionError`. -/
def SummaryWriter.addEmbedding (s : SummaryWriter) (matShape : List Nat)
    (metadata : Option (List String)) (labelImgShape : Option (List Nat)) :
    Except FacadeErr SummaryWriter :=
  let n := matShape.getD 0 0
  let metaBad : Bool :=
    match metadata with
    | some md => decide (n ≠ md.length)
    | none => false
  if metaBad then .error .assertionError else
  let liBad : Bool :=
    match labelImgShape with
    | some sh => decide (n ≠ sh.getD 0 0) || decide (sh.getD 2 0 ≠ sh.getD 3 0)
    | none => false
  if liBad then .error .assertionError else
  if matShape.length ≠ 2 then .error .assertionError else
  .ok s

/-- A concrete writer state used to instantiate the universally quantified
theorems below. -/
def sampleWriter : SummaryWriter :=
  { logdir := "runs", writeToDisk := true, purgeStep := none,
    fileWriter := some ⟨"runs", false, [], [], false⟩,
    allWriters := some [("runs", ⟨"runs", false, [], [], false⟩)],
    diskFiles := [] }

end TBX

namespace ConvertTpu

/-- The counter update of lines 25–26 for one consumed character: increment on
`'('`, then decrement on `')'`. -/
def cntStep (cnt : Int) (c : Char) : Int :=
  if c = ')' then (if c = '(' then cnt + 1 else cnt) - 1
  else (if c = '(' then cnt + 1 else cnt)

/-- Erase the `rep` component of a loop state (used to express that the
computed `rep` flag never influences the produced text). -/
def stripRep (u : St) : St := ⟨u.text, u.subject, u.lastK, false⟩

end ConvertTpu

/-! ## Theorems -/

namespace TBX

/-- Helper: `close` on an already-closed writer returns it unchanged. -/
theorem close_of_none {s : SummaryWriter} (h : s.allWriters = none) :
    SummaryWriter.close s = s := by
  unfold SummaryWriter.close
  rw [h]

/-- Helper: `close` on a live writer map flushes and closes every writer and
clears both references. -/
theorem close_of_some {s : SummaryWriter} {ws : List (String × FileWriter)}
    (h : s.allWriters = some ws) :
    SummaryWriter.close s =
      { s with fileWriter := none, allWriters := none,
               diskFiles := s.diskFiles ++ ws.map (fun p => (p.2.doFlush).doClose) } := by
  unfold SummaryWriter.close
  rw [h]

/-- **C7**: the first `close` flushes and releases every open underlying file
writer (each released writer has an empty buffer and a closed event file) and
clears both writer references; a second `close` returns without changing any
state. -/
theorem close_flushes_and_second_close_noop (s : SummaryWriter) :
    SummaryWriter.close (SummaryWriter.close s) = SummaryWriter.close s ∧
    ∀ ws, s.allWriters = some ws →
      (SummaryWriter.close s).fileWriter = none ∧
      (SummaryWriter.close s).allWriters = none ∧
      (SummaryWriter.close s).diskFiles =
        s.diskFiles ++ ws.map (fun p => (p.2.doFlush).doClose) ∧
      ∀ w ∈ ws.map (fun p => (p.2.doFlush).doClose),
        w.pending = [] ∧ w.closed = true := by
  constructor
  · cases h : s.allWriters with
    | none => rw [close_of_none h, close_of_none h]
    | some ws =>
      rw [close_of_some h]
      exact close_of_none rfl
  · intro ws h
    rw [close_of_some h]
    refine ⟨rfl, rfl, rfl, ?_⟩
    intro w hw
    rcases List.mem_map.mp hw with ⟨p, _, rfl⟩
    exact ⟨rfl, rfl⟩

/-- Witness for C7 at a concrete writer state. -/
theorem close_flushes_witness :
    sampleWriter.allWriters = some [("runs", ⟨"runs", false, [], [], false⟩)] ∧
    (SummaryWriter.close sampleWriter).diskFiles = [⟨"runs", false, [], [], true⟩] ∧
    SummaryWriter.close (SummaryWriter.close sampleWriter) =
      SummaryWriter.close sampleWriter := by
  have h := close_flushes_and_second_close_noop sampleWriter
  have h2 := h.2 _ rfl
  exact ⟨rfl, h2.2.2.1.trans (by rfl), h.1⟩

end TBX

namespace TBX

/-- Helper: after `close`, the writer map is cleared and the scalar fields are
untouched. -/
theorem close_clears (s : SummaryWriter) :
    (SummaryWriter.close s).allWriters = none ∧
    (SummaryWriter.close s).logdir = s.logdir ∧
    (SummaryWriter.close s).writeToDisk = s.writeToDisk ∧
    (SummaryWriter.close s).purgeStep = s.purgeStep := by
  cases h : s.allWriters with
  | none => rw [close_of_none h]; exact ⟨h, rfl, rfl, rfl⟩
  | some ws => rw [close_of_some h]; exact ⟨rfl, rfl, rfl, rfl⟩

/-- Helper: `recordOp` on a state whose writer map is `None` recreates the
default writer and appends the record to it. -/
theorem recordOp_of_none (s : SummaryWriter) (r : Record)
    (hd : s.writeToDisk = true) (hn : s.allWriters = none) :
    s.recordOp r =
      { s with purgeStep := none,
               fileWriter := some ((freshWriter s.logdir s.purgeStep).addSummary r),
               allWriters := some [(s.logdir, (freshWriter s.logdir s.purgeStep).addSummary r)] } := by
  unfold SummaryWriter.recordOp SummaryWriter.getFileWriter
  rw [hd, hn]
  simp

/-- **C10**: after `close`, a recording operation transparently recreates a
live file writer through `_get_file_writer` instead of failing: the recreated
writer is open, not a dummy, and the new record is buffered in it, and both
writer references hold it again. -/
theorem record_after_close_recreates (s : SummaryWriter) (r : Record)
    (h : s.writeToDisk = true) :
    ((SummaryWriter.close s).recordOp r).fileWriter =
      some ((freshWriter s.logdir s.purgeStep).addSummary r) ∧
    ((SummaryWriter.close s).recordOp r).allWriters =
      some [(s.logdir, (freshWriter s.logdir s.purgeStep).addSummary r)] ∧
    ((freshWriter s.logdir s.purgeStep).addSummary r).closed = false ∧
    ((freshWriter s.logdir s.purgeStep).addSummary r).isDummy = false ∧
    ((freshWriter s.logdir s.purgeStep).addSummary r).pending.getLast? = some r := by
  have hc := close_clears s
  have hrec := recordOp_of_none (SummaryWriter.close s) r
    (hc.2.2.1.trans h) hc.1
  rw [hrec]
  refine ⟨?_, ?_, ?_, ?_, ?_⟩ <;>
    cases hp : s.purgeStep <;>
      simp [freshWriter, FileWriter.addSummary, hc.2.1, hc.2.2.2, hp]

/-- Witness for C10 at a concrete writer state and record. -/
theorem record_after_close_recreates_witness :
    sampleWriter.writeToDisk = true ∧
    ((SummaryWriter.close sampleWriter).recordOp (Record.scalar "y" 2 (some 1))).fileWriter =
      some ⟨"runs", false, [Record.scalar "y" 2 (some 1)], [], false⟩ := by
  have h := record_after_close_recreates sampleWriter (Record.scalar "y" 2 (some 1)) rfl
  exact ⟨rfl, h.1.trans (by rfl)⟩

end TBX

namespace TBX

/-- **C8 counterexample**: `add_image_with_boxes` with 2 labels and 1 box does
NOT raise a precondition-violation error — it returns normally, merely logging
a warning (the `true` flag) and silently dropping the labels. -/
theorem image_boxes_mismatch_no_raise :
    sampleWriter.addImageWithBoxes "t" 1 (some ["a", "b"]) none =
      .ok (sampleWriter.recordOp (.imageBoxes "t" 1 none none), true) := rfl

/-- **C8 (amended)**: `add_histogram_raw` raises `ValueError` when the bucket
limit and count lengths differ, and `add_embedding` raises `AssertionError`
when the label count differs from the data-point count; but
`add_image_with_boxes` with a label count different from the box count does
not raise: it logs a warning and proceeds with the labels dropped. -/
theorem facade_shape_preconditions (s : SummaryWriter) (tag : String)
    (limits counts : List Int) (step : Option Int) (matShape : List Nat)
    (md : List String) (li : Option (List Nat)) (boxCount : Nat)
    (ls : List String) :
    (limits.length ≠ counts.length →
      s.addHistogramRaw tag limits counts step = .error .valueError) ∧
    (matShape.getD 0 0 ≠ md.length →
      s.addEmbedding matShape (some md) li = .error .assertionError) ∧
    (ls.length ≠ boxCount →
      s.addImageWithBoxes tag boxCount (some ls) step =
        .ok (s.recordOp (.imageBoxes tag boxCount none step), true)) := by
  refine ⟨fun h => ?_, fun h => ?_, fun h => ?_⟩
  · unfold SummaryWriter.addHistogramRaw
    rw [if_pos h]
  · unfold SummaryWriter.addEmbedding
    have hd : decide (matShape.getD 0 0 ≠ md.length) = true := decide_eq_true h
    simp only [hd, if_true]
  · unfold SummaryWriter.addImageWithBoxes
    simp [h]

/-- Witness for C8 at concrete mismatched shapes. -/
theorem facade_shape_preconditions_witness :
    (([1, 2] : List Int).length ≠ ([3] : List Int).length ∧
      sampleWriter.addHistogramRaw "h" [1, 2] [3] none = .error .valueError) ∧
    (([4, 5] : List Nat).getD 0 0 ≠ (["m"] : List String).length ∧
      sampleWriter.addEmbedding [4, 5] (some ["m"]) none = .error .assertionError) ∧
    ((["a", "b"] : List String).length ≠ 3 ∧
      sampleWriter.addImageWithBoxes "t2" 3 (some ["a", "b"]) none =
        .ok (sampleWriter.recordOp (.imageBoxes "t2" 3 none none), true)) := by
  have h := facade_shape_preconditions sampleWriter "h" [1, 2] [3] none [4, 5]
    ["m"] none 3 ["a", "b"]
  have h2 := facade_shape_preconditions sampleWriter "t2" [1, 2] [3] none [4, 5]
    ["m"] none 3 ["a", "b"]
  exact ⟨⟨by decide, h.1 (by decide)⟩, ⟨by decide, h.2.1 (by decide)⟩,
    ⟨by decide, h2.2.2 (by decide)⟩⟩

end TBX

namespace ConvertTpu

/-- **C9**: the patcher is not total.  On a text that ends exactly with a
pivot, the scan-loop body never executes: on the first match of a run the loop
variable `k` is unbound and the script crashes with `NameError`; when a
previous match has bound `k`, the stale value silently yields an arbitrary
insertion position (here: the marker lands at the clamped end of the text,
inside the second, unfinished call). -/
theorem pivot_at_end_not_total :
    patchText "x.view(".data = .error PyErr.nameError ∧
    patchText "a.view(1) b.view(".data =
      .ok "a.reshape(1).contiguous() b.reshape(.contiguous()".data := ⟨rfl, rfl⟩

/-- **C2 counterexample**: the patcher is not idempotent on every text.  On the
unbalanced input `x.view((` one run produces `x.reshape((.contiguous()`, and a
second run appends another marker at the end instead of leaving the text
unchanged. -/
theorem double_run_not_idempotent :
    patchText "x.view((".data = .ok "x.reshape((.contiguous()".data ∧
    patchText "x.reshape((.contiguous()".data =
      .ok "x.reshape((.contiguous().contiguous()".data ∧
    "x.reshape((.contiguous().contiguous()".data ≠
      "x.reshape((.contiguous()".data := ⟨rfl, rfl, by decide⟩

/-- **C3 counterexample**: on the unbalanced input `x.view(f(` the patcher
raises no error at all — it silently appends the marker at the end of the text
and finishes the file successfully. -/
theorem unbalanced_silently_appends :
    patchText "x.view(f(".data = .ok "x.reshape(f(.contiguous()".data := rfl

/-- **C4 counterexample**: a text with one non-overlapping top-level call to a
target name in which the marker already follows the call: the run inserts the
marker at zero positions, not one (the marker count is unchanged), so the
patcher does not insert at exactly N positions for every such text. -/
theorem prepatched_call_not_reinserted :
    patchText "x.view(1).contiguous()".data = .ok "x.reshape(1).contiguous()".data ∧
    pyCount insertStr "x.view(1).contiguous()".data = 1 ∧
    pyCount insertStr "x.reshape(1).contiguous()".data = 1 := ⟨rfl, rfl, rfl⟩

/-- **C6 counterexample**: a target name occurring as a suffix of a longer
identifier is NOT matched: in `x.preview(1)` the name `view` occurs as a
suffix of `preview`, yet the locator finds no occurrence of its pivot and the
patcher leaves the text unchanged. -/
theorem no_suffix_identifier_match :
    patchText "x.preview(1)".data = .ok "x.preview(1)".data ∧
    pyCount viewPivot "x.preview(1)".data = 0 := ⟨rfl, rfl⟩

end ConvertTpu

namespace ConvertTpu

/-- Unfolding lemma: one step of the scan loop. -/
theorem scanAux_cons (cnt : Int) (k : Nat) (c : Char) (rest : List Char) :
    scanAux cnt k (c :: rest) =
      if cntStep cnt c = 0 then some k
      else scanAux (cntStep cnt c) (k + 1) rest := rfl

/-- The scan's break index is independent of the enumeration offset `k`. -/
theorem scanAux_shift : ∀ (s : List Char) (cnt : Int) (k : Nat),
    scanAux cnt k s = (scanAux cnt 0 s).map (· + k)
  | [], _, _ => rfl
  | c :: rest, cnt, k => by
    rw [scanAux_cons, scanAux_cons]
    by_cases h : cntStep cnt c = 0
    · simp [h]
    · rw [if_neg h, if_neg h, scanAux_shift rest _ (k + 1), scanAux_shift rest _ 1,
        Option.map_map]
      congr 1
      funext x
      simp only [Function.comp_apply]
      omega

/-- `cntStep` in terms of parenthesis counts. -/
theorem cntStep_count (cnt : Int) (c : Char) (l : List Char) (n : Nat) :
    cnt + (((c :: l).take (n + 1)).count '(' : Int) - ((c :: l).take (n + 1)).count ')'
      = cntStep cnt c + ((l.take n).count '(' : Int) - (l.take n).count ')' := by
  rw [List.take_succ_cons, List.count_cons, List.count_cons]
  unfold cntStep
  by_cases h1 : c = '(' <;> by_cases h2 : c = ')'
  · exact absurd (h1 ▸ h2) (by decide)
  · simp only [h1, if_pos, if_neg h2, beq_self_eq_true, if_true]
    have : (')' == '(') = false := by decide
    simp [this]
    ring
  · simp only [h2, if_pos, if_neg h1, beq_self_eq_true, if_true]
    have : ('(' == ')') = false := by decide
    simp [this]
    ring
  · have e1 : ('(' == c) = false := by
      cases e : ('(' == c)
      · rfl
      · exact absurd (eq_of_beq e).symm h1
    have e2 : (')' == c) = false := by
      cases e : (')' == c)
      · rfl
      · exact absurd (eq_of_beq e).symm h2
    simp [e1, e2, if_neg h1, if_neg h2]

/-- The scan loop finds exactly the first index at which the running counter
reaches zero (stated for an arbitrary starting counter). -/
theorem scanAux_first_zero : ∀ (s : List Char) (cnt : Int) (k : Nat),
    scanAux cnt 0 s = some k ↔
      (k < s.length ∧
       cnt + ((s.take (k + 1)).count '(' : Int) - (s.take (k + 1)).count ')' = 0 ∧
       ∀ j, j < k → cnt + ((s.take (j + 1)).count '(' : Int) - (s.take (j + 1)).count ')' ≠ 0)
  | [], cnt, k => by simp [scanAux]
  | c :: rest, cnt, k => by
    rw [scanAux_cons]
    by_cases h : cntStep cnt c = 0
    · rw [if_pos h]
      constructor
      · intro hk
        cases hk
        refine ⟨by simp, ?_, by omega⟩
        rw [cntStep_count cnt c rest 0]
        simpa using h
      · rintro ⟨hlen, hzero, hfirst⟩
        cases k with
        | zero => rfl
        | succ k2 =>
          exfalso
          apply hfirst 0 (Nat.succ_pos k2)
          rw [cntStep_count cnt c rest 0]
          simpa using h
    · rw [if_neg h, scanAux_shift]
      constructor
      · intro hk
        rcases Option.map_eq_some'.mp hk with ⟨k2, hk2, rfl⟩
        rcases (scanAux_first_zero rest (cntStep cnt c) k2).mp hk2 with ⟨hlen, hzero, hfirst⟩
        refine ⟨by simpa using Nat.add_lt_add_right hlen 1, ?_, ?_⟩
        · rw [cntStep_count cnt c rest (k2 + 1)]
          exact hzero
        · intro j hj
          cases j with
          | zero =>
            rw [cntStep_count cnt c rest 0]
            simpa using h
          | succ j2 =>
            rw [cntStep_count cnt c rest (j2 + 1)]
            exact hfirst j2 (by omega)
      · rintro ⟨hlen, hzero, hfirst⟩
        cases k with
        | zero =>
          exfalso
          apply h
          have := hzero
          rw [cntStep_count cnt c rest 0] at this
          simpa using this
        | succ k2 =>
          have hrest : scanAux (cntStep cnt c) 0 rest = some k2 := by
            apply (scanAux_first_zero rest (cntStep cnt c) k2).mpr
            refine ⟨by simpa using hlen, ?_, ?_⟩
            · rw [← cntStep_count cnt c rest (k2 + 1)]
              exact hzero
            · intro j hj
              rw [← cntStep_count cnt c rest (j + 1)]
              exact hfirst (j + 1) (by omega)
          rw [hrest]
          rfl

/-- When started from a positive counter, the scan breaks on a `')'`. -/
theorem scanAux_stops_at_close : ∀ (s : List Char) (cnt : Int) (k : Nat),
    0 < cnt → scanAux cnt 0 s = some k → s.get? k = some ')'
  | [], _, _, _, hk => by simp [scanAux] at hk
  | c :: rest, cnt, k, hpos, hk => by
    rw [scanAux_cons] at hk
    by_cases h : cntStep cnt c = 0
    · rw [if_pos h] at hk
      cases hk
      have hc : c = ')' := by
        by_contra hc
        unfold cntStep at h
        rw [if_neg hc] at h
        by_cases h1 : c = '(' <;> simp [h1] at h <;> omega
      rw [hc]
      exact List.get?_cons_zero
    · rw [if_neg h, scanAux_shift] at hk
      rcases Option.map_eq_some'.mp hk with ⟨k2, hk2, rfl⟩
      have hpos2 : 0 < cntStep cnt c := by
        unfold cntStep
        by_cases h1 : c = '(' <;> by_cases h2 : c = ')' <;>
          simp [h1, h2] <;>
          unfold cntStep at h <;> simp [h1, h2] at h <;> omega
      rw [show k2 + 1 = k2 + 1 from rfl, List.get?_cons_succ]
      exact scanAux_stops_at_close rest (cntStep cnt c) k2 hpos2 hk2

end ConvertTpu

namespace ConvertTpu

/-- Helper: the loop body when the occurrence search succeeds and the depth
scan breaks at index `k`: the insertion offset is `subject + k + 1` and the
marker is inserted there unless it already begins at exactly that offset. -/
theorem stepOcc_found (piv : List Char) (st : St) (idx k : Nat)
    (h1 : pyFind piv st.text st.subject = some idx)
    (h2 : scanAux 1 0 (st.text.drop (idx + piv.length)) = some k) :
    stepOcc piv st =
      if pyFind insertStr st.text (idx + piv.length + k + 1) =
          some (idx + piv.length + k + 1) then
        .ok ⟨st.text, idx + piv.length, some k, st.rep⟩
      else
        .ok ⟨st.text.take (idx + piv.length + k + 1) ++ insertStr ++
              st.text.drop (idx + piv.length + k + 1),
             idx + piv.length, some k, true⟩ := by
  unfold stepOcc
  rw [h1]
  simp only [h2]
  rcases hf : pyFind insertStr st.text (idx + piv.length + k + 1) with _ | j
  · simp only [hf]
    rw [if_neg (by omega), if_neg (by simp)]
  · simp only [hf]
    by_cases hj : j = idx + piv.length + k + 1
    · subst hj
      rw [if_pos rfl, if_pos rfl]
    · rw [if_neg (by exact_mod_cast hj), if_neg (by simp [hj])]

end ConvertTpu

namespace ConvertTpu

/-- **C1**: the patcher computes a call's end-offset by depth counting: the
counter starts at 1 just after the opening parenthesis, is incremented on each
`'('` and decremented on each `')'`, and the scan stops at the first index at
which the counter reaches 0 — a `')'`, the matching close parenthesis even for
nested arguments.  The located loop body then uses exactly this index:
`insert_idx = subject + k + 1`.  For `outer(inner(a,b), c)` (scanned just
after `outer(`) the matched end-offset is 6 + 13 = 19, the final closing
parenthesis of the text, not the one closing `inner`. -/
theorem depth_scan_matching_close :
    (∀ s k, scanAux 1 0 s = some k ↔
      (k < s.length ∧ cntAfter s (k + 1) = 0 ∧
        ∀ j, j < k → cntAfter s (j + 1) ≠ 0)) ∧
    (∀ s k, scanAux 1 0 s = some k → s.get? k = some ')') ∧
    (∀ piv st idx k,
      pyFind piv st.text st.subject = some idx →
      scanAux 1 0 (st.text.drop (idx + piv.length)) = some k →
      stepOcc piv st =
        if pyFind insertStr st.text (idx + piv.length + k + 1) =
            some (idx + piv.length + k + 1) then
          .ok ⟨st.text, idx + piv.length, some k, st.rep⟩
        else
          .ok ⟨st.text.take (idx + piv.length + k + 1) ++ insertStr ++
                st.text.drop (idx + piv.length + k + 1),
               idx + piv.length, some k, true⟩) ∧
    scanAux 1 0 (List.drop 6 "outer(inner(a,b), c)".data) = some 13 ∧
    List.get? "outer(inner(a,b), c)".data 19 = some ')' ∧
    "outer(inner(a,b), c)".data.length = 20 := by
  refine ⟨fun s k => scanAux_first_zero s 1 k, fun s k => scanAux_stops_at_close s 1 k one_pos,
    fun piv st idx k h1 h2 => stepOcc_found piv st idx k h1 h2, rfl, rfl, rfl⟩

/-- Witness for C1: the characterization and the loop body evaluated at
concrete inputs. -/
theorem depth_scan_matching_close_witness :
    cntAfter (List.drop 6 "outer(inner(a,b), c)".data) 14 = 0 ∧
    List.get? (List.drop 6 "outer(inner(a,b), c)".data) 13 = some ')' ∧
    stepOcc viewPivot ⟨"x.view(a(b),c).y".data, 0, none, false⟩ =
      .ok ⟨"x.view(a(b),c).contiguous().y".data, 7, some 6, true⟩ := by
  have h := depth_scan_matching_close
  refine ⟨((h.1 (List.drop 6 "outer(inner(a,b), c)".data) 13).mp rfl).2.1,
    h.2.1 (List.drop 6 "outer(inner(a,b), c)".data) 13 rfl, ?_⟩
  have h3 := h.2.2.1 viewPivot ⟨"x.view(a(b),c).y".data, 0, none, false⟩ 1 6 rfl rfl
  rw [h3]
  rfl

end ConvertTpu

namespace ConvertTpu

/-- **C3 (amended)**: on a text where the slice after a located call is
nonempty and unbalanced (the counter never reaches 0), the loop runs off the
end of the slice, the insertion offset evaluates to the text length, and the
patcher silently appends the marker at the very end of the text — no error is
raised and the iteration reports success. -/
theorem scan_runs_off_end_appends (piv : List Char) (st : St) (idx : Nat)
    (h1 : pyFind piv st.text st.subject = some idx)
    (h2 : scanAux 1 0 (st.text.drop (idx + piv.length)) = none)
    (h3 : st.text.drop (idx + piv.length) ≠ []) :
    stepOcc piv st =
      .ok ⟨st.text ++ insertStr, idx + piv.length,
           some (st.text.length - (idx + piv.length) - 1), true⟩ := by
  unfold stepOcc
  rw [h1]
  simp only [h2]
  have hE : (st.text.drop (idx + piv.length)).isEmpty = false := by
    cases hd : st.text.drop (idx + piv.length)
    · exact absurd hd h3
    · rfl
  simp only [hE, Bool.false_eq_true, if_false, List.length_drop]
  have hlt : idx + piv.length < st.text.length := by
    by_contra hge
    exact h3 (List.drop_eq_nil_iff.mpr (by omega))
  have hIdx : idx + piv.length + (st.text.length - (idx + piv.length) - 1) + 1 =
      st.text.length := by omega
  rw [hIdx]
  have hfind : pyFind insertStr st.text st.text.length = none := by
    unfold pyFind
    rw [List.drop_length]
    rfl
  simp only [hfind]
  rw [if_neg (by omega), List.take_length, List.drop_length, List.append_nil]

/-- Witness for C3's amended theorem on `x.view(f(`. -/
theorem scan_runs_off_end_appends_witness :
    stepOcc viewPivot ⟨"x.view(f(".data, 0, none, false⟩ =
      .ok ⟨"x.view(f(.contiguous()".data, 7, some 1, true⟩ := by
  have h := scan_runs_off_end_appends viewPivot ⟨"x.view(f(".data, 0, none, false⟩ 1
    rfl rfl (by decide)
  rw [h]
  rfl

end ConvertTpu

namespace ConvertTpu



end ConvertTpu

namespace ConvertTpu

/-- **C6 (amended)**: the locator is a raw substring search for the literal
`'.' + name + '('` with no token-boundary check of its own; however, because
the searched literal itself begins with `'.'`, the character immediately
preceding a matched name is always `'.'`, which is not an identifier
character — so a target name occurring as a suffix of a longer identifier is
never matched (cf. the `x.preview(1)` counterexample). -/
theorem pivot_match_preceded_by_dot (name s : List Char) (i : Nat)
    (h : pivotOf name <+: s.drop i) :
    s.get? i = some '.' ∧ isIdentChar '.' = false := by
  refine ⟨?_, by decide⟩
  have h0 : (s.drop i).get? 0 = some '.' := by
    rcases h with ⟨t, ht⟩
    rw [← ht]
    rfl
  have h1 := List.get?_drop s i 0
  rw [Nat.add_zero] at h1
  rw [← h1]
  exact h0

/-- Witness for C6's amended theorem at a genuine match. -/
theorem pivot_match_preceded_by_dot_witness :
    List.get? "x.view(1)".data 1 = some '.' ∧ isIdentChar '.' = false :=
  pivot_match_preceded_by_dot "view".data "x.view(1)".data 1 ⟨"1)".data, by rfl⟩

end ConvertTpu

namespace ConvertTpu

/-- `Except.map` composes (by cases). -/
theorem exceptMap_comp {ε α β γ : Type} (e : Except ε α) (g : α → β) (h : β → γ) :
    (e.map g).map h = e.map (fun a => h (g a)) := by
  cases e <;> rfl

/-- The loop body reads only `text`, `subject` and `lastK`; the incoming `rep`
flag can only flow into the output's `rep` component. -/
theorem stepOcc_rep (piv t : List Char) (s : Nat) (k : Option Nat) (r r2 : Bool) :
    (stepOcc piv ⟨t, s, k, r⟩).map stripRep =
      (stepOcc piv ⟨t, s, k, r2⟩).map stripRep := by
  simp only [stepOcc]
  rcases pyFind piv t s with _ | idx
  · rfl
  · dsimp only
    rcases scanAux 1 0 (List.drop (idx + piv.length) t) with _ | kk
    · rcases hE : (List.drop (idx + piv.length) t).isEmpty with _ | _
      · simp only [hE, Bool.false_eq_true, if_false]
        split_ifs <;> rfl
      · simp only [hE, eq_self_iff_true, if_true]
        rcases k with _ | kk2
        · rfl
        · dsimp only
          split_ifs <;> rfl
    · dsimp only
      split_ifs <;> rfl

/-- `stepOcc` commutes with `stripRep` up to `stripRep` of the result. -/
theorem stepOcc_stripRep (piv : List Char) (st : St) :
    (stepOcc piv (stripRep st)).map stripRep = (stepOcc piv st).map stripRep :=
  stepOcc_rep piv st.text st.subject st.lastK false st.rep

/-- The occurrence loop commutes with `stripRep` up to `stripRep`. -/
theorem runIters_stripRep (piv : List Char) : ∀ (n : Nat) (st : St),
    (runIters piv n (stripRep st)).map stripRep = (runIters piv n st).map stripRep
  | 0, st => rfl
  | n + 1, st => by
    simp only [runIters]
    have hstep := stepOcc_stripRep piv st
    rcases ha : stepOcc piv (stripRep st) with e | u <;>
      rcases hb : stepOcc piv st with e2 | v <;>
        rw [ha, hb] at hstep <;>
          simp only [Except.map] at hstep
    · cases hstep
      rfl
    · exact absurd hstep (by simp)
    · exact absurd hstep (by simp)
    · have huv : stripRep u = stripRep v := by
        injection hstep
      show (runIters piv n u).map stripRep = (runIters piv n v).map stripRep
      have h1 := runIters_stripRep piv n u
      have h2 := runIters_stripRep piv n v
      rw [← h1, ← h2, huv]

/-- A name pass commutes with `stripRep` up to `stripRep`. -/
theorem namePass_stripRep (name : List Char) (st : St) :
    (namePass name (stripRep st)).map stripRep = (namePass name st).map stripRep :=
  runIters_stripRep (pivotOf name) (pyCount (pivotOf name) st.text)
    ⟨st.text, 0, st.lastK, st.rep⟩

/-- Two states with the same core give the same (stripped) pass result. -/
theorem namePass_congr_strip (name : List Char) (a b : St)
    (hab : stripRep a = stripRep b) :
    (namePass name a).map stripRep = (namePass name b).map stripRep := by
  rw [← namePass_stripRep name a, ← namePass_stripRep name b, hab]

/-- The two chained passes ignore the incoming `rep` flag up to `stripRep`. -/
theorem passes_rep (t : List Char) (s : Nat) (k : Option Nat) (r r2 : Bool) :
    ((namePass "view".data ⟨t, s, k, r⟩ >>= namePass "reshape".data).map stripRep) =
      ((namePass "view".data ⟨t, s, k, r2⟩ >>= namePass "reshape".data).map stripRep) := by
  have hv : (namePass "view".data ⟨t, s, k, r⟩).map stripRep =
      (namePass "view".data ⟨t, s, k, r2⟩).map stripRep :=
    namePass_congr_strip "view".data ⟨t, s, k, r⟩ ⟨t, s, k, r2⟩ rfl
  rcases ha : namePass "view".data ⟨t, s, k, r⟩ with e | u <;>
    rcases hb : namePass "view".data ⟨t, s, k, r2⟩ with e2 | v <;>
      rw [ha, hb] at hv <;>
        simp only [Except.map] at hv
  · cases hv
    rfl
  · exact absurd hv (by simp)
  · exact absurd hv (by simp)
  · have huv : stripRep u = stripRep v := by injection hv
    show (namePass "reshape".data u).map stripRep =
      (namePass "reshape".data v).map stripRep
    exact namePass_congr_strip "reshape".data u v huv

end ConvertTpu

namespace ConvertTpu

/-- Helper: states equal up to `rep` yield the same final text after the
closing `map`s of `patchSt`. -/
theorem mapText_congr_strip (e1 e2 : Except PyErr St)
    (h12 : e1.map stripRep = e2.map stripRep) :
    (e1.map (fun st2 : St =>
        St.mk (pyReplace viewPivot reshapePivot st2.text) st2.subject st2.lastK st2.rep)).map
      St.text =
    (e2.map (fun st2 : St =>
        St.mk (pyReplace viewPivot reshapePivot st2.text) st2.subject st2.lastK st2.rep)).map
      St.text := by
  cases e1 with
  | error a =>
    cases e2 with
    | error b =>
      simp only [Except.map] at h12 ⊢
      cases h12
      rfl
    | ok b => exact absurd h12 (by simp [Except.map])
  | ok a =>
    cases e2 with
    | error b => exact absurd h12 (by simp [Except.map])
    | ok b =>
      simp only [Except.map] at h12 ⊢
      injection h12 with h12
      have ht := congrArg St.text h12
      simp only [stripRep] at ht
      rw [ht]

/-- **C5**: after both name passes the patcher performs exactly one global
literal substring replacement rewriting `.view(` into `.reshape(`, and it runs
unconditionally on every processed file: the final text never depends on the
computed `rep` flag, and a file in which no marker was inserted is still
rewritten by the final replacement. -/
theorem final_replace_unconditional :
    (∀ t st2,
      (namePass "view".data ⟨t, 0, none, false⟩ >>= namePass "reshape".data) = .ok st2 →
      patchText t = .ok (pyReplace viewPivot reshapePivot st2.text)) ∧
    (∀ t s k (r r2 : Bool),
      (patchSt ⟨t, s, k, r⟩).map St.text = (patchSt ⟨t, s, k, r2⟩).map St.text) ∧
    patchText "a.view(1).contiguous()".data = .ok "a.reshape(1).contiguous()".data := by
  refine ⟨?_, ?_, rfl⟩
  · intro t st2 h
    unfold patchText patchSt
    rw [h]
    rfl
  · intro t s k r r2
    unfold patchSt
    exact mapText_congr_strip _ _ (passes_rep t s k r r2)

/-- Witness for C5: a file whose single call is already patched (`rep` stays
false, no insertion) still has `.view(` rewritten to `.reshape(` by the final
replacement. -/
theorem final_replace_unconditional_witness :
    patchText "a.view(1).contiguous()".data =
      .ok (pyReplace viewPivot reshapePivot
        (St.mk "a.view(1).contiguous()".data 0 (some 1) false).text) ∧
    (patchSt ⟨"a.view(1).contiguous()".data, 0, none, false⟩).map St.text =
      (patchSt ⟨"a.view(1).contiguous()".data, 0, none, true⟩).map St.text := by
  have h := final_replace_unconditional
  exact ⟨h.1 "a.view(1).contiguous()".data
      (St.mk "a.view(1).contiguous()".data 0 (some 1) false) rfl,
    h.2.1 "a.view(1).contiguous()".data 0 none false true⟩

end ConvertTpu

namespace ConvertTpu

/-- The search's returned index is the start offset plus the relative offset. -/
theorem findAux_shift (pat : List Char) : ∀ (u : List Char) (i : Nat),
    findAux pat u i = (findAux pat u 0).map (· + i)
  | [], i => by
    unfold findAux
    by_cases h : pat = [] <;> simp [h]
  | c :: t, i => by
    unfold findAux
    by_cases h : pat.isPrefixOf (c :: t)
    · simp [h]
    · rw [if_neg h, if_neg h, findAux_shift pat t (i + 1), findAux_shift pat t 1,
        Option.map_map]
      congr 1
      funext x
      simp only [Function.comp_apply]
      omega

/-- The search fails exactly when the pattern occurs nowhere in the suffix. -/
theorem findAux_eq_none (pat : List Char) (hp : pat ≠ []) :
    ∀ (u : List Char) (i : Nat),
      findAux pat u i = none ↔ ∀ m, ¬ pat <+: u.drop m
  | [], i => by
    unfold findAux
    rw [if_neg hp]
    simp [List.prefix_nil, hp]
  | c :: t, i => by
    unfold findAux
    by_cases h : pat.isPrefixOf (c :: t)
    · rw [if_pos h]
      simp only [reduceCtorEq, false_iff, not_forall, not_not]
      exact ⟨0, List.isPrefixOf_iff_prefix.mp h⟩
    · rw [if_neg h]
      rw [findAux_eq_none pat hp t (i + 1)]
      constructor
      · intro hall m
        cases m with
        | zero =>
          rw [List.drop_zero]
          intro hpre
          exact h (List.isPrefixOf_iff_prefix.mpr hpre)
        | succ m2 => exact hall m2
      · intro hall m
        exact hall (m + 1)

/-- The search succeeds exactly on the first occurrence at or after the start. -/
theorem findAux_eq_some (pat : List Char) (hp : pat ≠ []) :
    ∀ (u : List Char) (i j : Nat),
      findAux pat u i = some j ↔
        (i ≤ j ∧ pat <+: u.drop (j - i) ∧ ∀ m, m < j - i → ¬ pat <+: u.drop m)
  | [], i, j => by
    unfold findAux
    rw [if_neg hp]
    simp only [reduceCtorEq, false_iff, not_and]
    intro _ hpre
    rw [List.drop_nil] at hpre
    exact absurd (List.prefix_nil.mp hpre) hp
  | c :: t, i, j => by
    unfold findAux
    by_cases h : pat.isPrefixOf (c :: t)
    · rw [if_pos h]
      constructor
      · intro hij
        cases hij
        refine ⟨le_refl i, ?_, ?_⟩
        · rw [Nat.sub_self, List.drop_zero]
          exact List.isPrefixOf_iff_prefix.mp h
        · intro m hm
          omega
      · rintro ⟨hij, hpre, hfirst⟩
        by_cases hji : j = i
        · rw [hji]
        · exfalso
          apply hfirst 0 (by omega)
          rw [List.drop_zero]
          exact List.isPrefixOf_iff_prefix.mp h
    · rw [if_neg h]
      rw [findAux_eq_some pat hp t (i + 1) j]
      constructor
      · rintro ⟨hij, hpre, hfirst⟩
        refine ⟨by omega, ?_, ?_⟩
        · have : j - i = (j - (i + 1)) + 1 := by omega
          rw [this, List.drop_succ_cons]
          exact hpre
        · intro m hm
          cases m with
          | zero =>
            rw [List.drop_zero]
            intro hc
            exact h (List.isPrefixOf_iff_prefix.mpr hc)
          | succ m2 =>
            rw [List.drop_succ_cons]
            exact hfirst m2 (by omega)
      · rintro ⟨hij, hpre, hfirst⟩
        have hji : i ≠ j := by
          rintro rfl
          rw [Nat.sub_self, List.drop_zero] at hpre
          exact h (List.isPrefixOf_iff_prefix.mpr hpre)
        refine ⟨by omega, ?_, ?_⟩
        · have : j - (i + 1) = (j - i) - 1 := by omega
          rw [this]
          have h2 : j - i = ((j - i) - 1) + 1 := by omega
          rw [h2, List.drop_succ_cons] at hpre
          exact hpre
        · intro m hm
          have := hfirst (m + 1) (by omega)
          rw [List.drop_succ_cons] at this
          exact this

/-- `text.find(pat, start) == -1` exactly when `pat` occurs nowhere at or after
`start`. -/
theorem pyFind_eq_none (pat s : List Char) (start : Nat) (hp : pat ≠ []) :
    pyFind pat s start = none ↔ ∀ q, start ≤ q → ¬ pat <+: s.drop q := by
  unfold pyFind
  rw [findAux_eq_none pat hp]
  constructor
  · intro hall q hq
    have := hall (q - start)
    rw [List.drop_drop] at this
    have he : start + (q - start) = q := by omega
    rw [he] at this
    exact this
  · intro hall m
    rw [List.drop_drop]
    exact hall (start + m) (by omega)

/-- `text.find(pat, start) == j` exactly when `j` is the first occurrence at or
after `start`. -/
theorem pyFind_eq_some (pat s : List Char) (start j : Nat) (hp : pat ≠ []) :
    pyFind pat s start = some j ↔
      (start ≤ j ∧ pat <+: s.drop j ∧
        ∀ q, start ≤ q → q < j → ¬ pat <+: s.drop q) := by
  unfold pyFind
  rw [findAux_eq_some pat hp]
  constructor
  · rintro ⟨hij, hpre, hfirst⟩
    rw [List.drop_drop] at hpre
    have he : start + (j - start) = j := by omega
    rw [he] at hpre
    refine ⟨hij, hpre, ?_⟩
    intro q hq1 hq2
    have := hfirst (q - start) (by omega)
    rw [List.drop_drop] at this
    have he2 : start + (q - start) = q := by omega
    rw [he2] at this
    exact this
  · rintro ⟨hij, hpre, hfirst⟩
    refine ⟨hij, ?_, ?_⟩
    · rw [List.drop_drop]
      have he : start + (j - start) = j := by omega
      rw [he]
      exact hpre
    · intro m hm
      rw [List.drop_drop]
      exact hfirst (start + m) (by omega) (by omega)

end ConvertTpu

namespace ConvertTpu

/-- A prefix of `A` is a prefix of `A ++ B`. -/
theorem pre_append_left {pat A : List Char} (B : List Char) (h : pat <+: A) :
    pat <+: A ++ B :=
  h.trans (List.prefix_append A B)

/-- A prefix of `A ++ B` no longer than `A` is a prefix of `A`. -/
theorem pre_of_append {pat A B : List Char} (h : pat <+: A ++ B)
    (hl : pat.length ≤ A.length) : pat <+: A := by
  rw [List.prefix_iff_eq_take] at h ⊢
  rw [List.take_append_of_le_length hl] at h
  exact h

/-- An occurrence inside `A` is an occurrence in `A ++ B` at the same offset. -/
theorem occ_append_left {pat A : List Char} (B : List Char) (q : Nat)
    (h : pat <+: A.drop q) : pat <+: (A ++ B).drop q := by
  rw [List.drop_append_eq_append_drop]
  exact pre_append_left _ h

/-- An occurrence in `B` is an occurrence in `A ++ B` shifted by `A.length`. -/
theorem occ_append_right {pat B : List Char} (A : List Char) (q : Nat)
    (h : pat <+: B.drop q) : pat <+: (A ++ B).drop (A.length + q) := by
  rw [List.drop_append]
  exact h

/-- An occurrence in `A ++ B` that fits inside `A` is an occurrence in `A`. -/
theorem occ_append_split {pat A B : List Char} {q : Nat}
    (h : pat <+: (A ++ B).drop q) (hq : q + pat.length ≤ A.length) :
    pat <+: A.drop q := by
  rw [List.drop_append_eq_append_drop] at h
  refine pre_of_append h ?_
  rw [List.length_drop]
  omega

/-- Two distinct occurrences of a borderless pattern cannot overlap. -/
theorem occ_no_overlap {piv s : List Char} {q1 q2 : Nat} (hP : PivOk piv)
    (h1 : piv <+: s.drop q1) (h2 : piv <+: s.drop q2) (hlt : q1 < q2) :
    q1 + piv.length ≤ q2 := by
  by_contra hc
  have e1 : piv = (s.drop q1).take piv.length := List.prefix_iff_eq_take.mp h1
  have e2 : piv = (s.drop q2).take piv.length := List.prefix_iff_eq_take.mp h2
  have l1 : piv.drop (q2 - q1) = (s.drop q2).take (piv.length - (q2 - q1)) := by
    conv_lhs => rw [e1]
    rw [List.drop_take, List.drop_drop]
    have hq : q1 + (q2 - q1) = q2 := by omega
    rw [hq]
  have l2 : ∀ n, n ≤ piv.length → piv.take n = (s.drop q2).take n := by
    intro n hle
    conv_lhs => rw [e2]
    rw [List.take_take, min_eq_left hle]
  have key : piv.drop (q2 - q1) = piv.take (piv.length - (q2 - q1)) :=
    l1.trans (l2 (piv.length - (q2 - q1)) (by omega)).symm
  have hno := hP.2.2.1 (piv.length - (q2 - q1)) (by omega) (by omega)
  apply hno
  have hrw : piv.length - (piv.length - (q2 - q1)) = q2 - q1 := by
    have := h1.length_le
    omega
  rw [hrw]
  exact key.symm

end ConvertTpu

namespace ConvertTpu

/-- Dropping exactly the first list of an append. -/
theorem drop_length_append (X Z : List Char) : (X ++ Z).drop X.length = Z := by
  have h := @List.drop_append Char X Z 0
  rw [Nat.add_zero] at h
  rw [h, List.drop_zero]

/-- Occurrences of a `PivOk` pattern in a text with the marker spliced in lie
entirely inside the part before the marker or entirely inside the part after
it: the pattern can neither sit inside the marker nor straddle its
boundaries. -/
theorem occ_insert_iff (piv X Y : List Char) (q : Nat) (hP : PivOk piv) :
    piv <+: (X ++ (insertStr ++ Y)).drop q ↔
      ((q + piv.length ≤ X.length ∧ piv <+: X.drop q) ∨
       (X.length + insertStr.length ≤ q ∧
        piv <+: Y.drop (q - X.length - insertStr.length))) := by
  constructor
  · intro h
    have hpos : 0 < piv.length := List.length_pos.mpr hP.1
    by_cases hc1 : q + piv.length ≤ X.length
    · exact Or.inl ⟨hc1, occ_append_split h hc1⟩
    · by_cases hc2 : q < X.length
      · exfalso
        have e0 : piv = ((X ++ (insertStr ++ Y)).drop q).take piv.length :=
          List.prefix_iff_eq_take.mp h
        have l1 : piv.drop (X.length - q) =
            ((X ++ (insertStr ++ Y)).drop (q + (X.length - q))).take
              (piv.length - (X.length - q)) := by
          conv_lhs => rw [e0]
          rw [List.drop_take, List.drop_drop]
        have hqa : q + (X.length - q) = X.length := by omega
        have l2 : (X ++ (insertStr ++ Y)).drop X.length = insertStr ++ Y :=
          drop_length_append X (insertStr ++ Y)
        have l3 : (insertStr ++ Y).take (piv.length - (X.length - q)) =
            insertStr.take (piv.length - (X.length - q)) := by
          apply List.take_append_of_le_length
          have := hP.2.1
          omega
        have lkey : piv.drop (X.length - q) =
            insertStr.take (piv.length - (X.length - q)) := by
          rw [l1, hqa, l2, l3]
        have hb := hP.2.2.2.2.1 (piv.length - (X.length - q)) (by omega) (by omega)
        apply hb
        have hrw : piv.length - (piv.length - (X.length - q)) = X.length - q := by
          omega
        rw [hrw]
        exact lkey
      · by_cases hc3 : q < X.length + insertStr.length
        · exfalso
          have l2 : (X ++ (insertStr ++ Y)).drop q =
              (insertStr ++ Y).drop (q - X.length) := by
            rw [show q = X.length + (q - X.length) from by omega, List.drop_append]
            congr 1
            omega
          have h2 : piv <+: (insertStr ++ Y).drop (q - X.length) := by
            rw [← l2]
            exact h
          by_cases hc4 : (q - X.length) + piv.length ≤ insertStr.length
          · have hocc : piv <+: insertStr.drop (q - X.length) :=
              occ_append_split h2 hc4
            exact (pyFind_eq_none piv insertStr 0 hP.1).mp hP.2.2.2.1
              (q - X.length) (Nat.zero_le _) hocc
          · have e0 : piv = ((insertStr ++ Y).drop (q - X.length)).take piv.length :=
              List.prefix_iff_eq_take.mp h2
            have l4 : ∀ n, n ≤ piv.length →
                piv.take n = ((insertStr ++ Y).drop (q - X.length)).take n := by
              intro n hn
              conv_lhs => rw [e0]
              rw [List.take_take, min_eq_left hn]
            have l5 : (insertStr ++ Y).drop (q - X.length) =
                insertStr.drop (q - X.length) ++ Y :=
              List.drop_append_of_le_length (by omega)
            have hlen : (insertStr.drop (q - X.length)).length =
                insertStr.length - (q - X.length) := List.length_drop _ _
            have l6 : (insertStr.drop (q - X.length) ++ Y).take
                (insertStr.length - (q - X.length)) = insertStr.drop (q - X.length) := by
              rw [List.take_append_of_le_length (by omega),
                show insertStr.length - (q - X.length) =
                  (insertStr.drop (q - X.length)).length from hlen.symm,
                List.take_length]
            have lkey : piv.take (insertStr.length - (q - X.length)) =
                insertStr.drop (q - X.length) := by
              rw [l4 (insertStr.length - (q - X.length)) (by omega), l5, l6]
            have hcontra := hP.2.2.2.2.2 (insertStr.length - (q - X.length))
              (by omega) (by omega)
            apply hcontra
            rw [lkey]
            congr 1
            omega
        · refine Or.inr ⟨by omega, ?_⟩
          have l2 : (X ++ (insertStr ++ Y)).drop q =
              Y.drop (q - X.length - insertStr.length) := by
            rw [show q = X.length + (q - X.length) from by omega, List.drop_append,
              show q - X.length = insertStr.length + (q - X.length - insertStr.length)
                from by omega, List.drop_append]
            congr 1
            omega
          rw [← l2]
          exact h
  · rintro (⟨hq, hocc⟩ | ⟨hq, hocc⟩)
    · exact occ_append_left _ q hocc
    · have o1 := occ_append_right insertStr (q - X.length - insertStr.length) hocc
      have o2 := occ_append_right X
        (insertStr.length + (q - X.length - insertStr.length)) o1
      have hrw : X.length + (insertStr.length + (q - X.length - insertStr.length)) =
          q := by omega
      rw [hrw] at o2
      exact o2

end ConvertTpu

namespace ConvertTpu

/-- `countF` is fuel-irrelevant once the fuel covers the text length. -/
theorem countF_congr (pat : List Char) : ∀ (f1 f2 : Nat) (s : List Char),
    s.length ≤ f1 → s.length ≤ f2 → countF pat f1 s = countF pat f2 s
  | 0, f2, s, h1, h2 => by
    have hs : s = [] := List.eq_nil_of_length_eq_zero (by omega)
    subst hs
    cases f2 <;> rfl
  | f1 + 1, 0, s, h1, h2 => by
    have hs : s = [] := List.eq_nil_of_length_eq_zero (by omega)
    subst hs
    rfl
  | f1 + 1, f2 + 1, [], h1, h2 => rfl
  | f1 + 1, f2 + 1, c :: t, h1, h2 => by
    simp only [countF]
    simp only [List.length_cons] at h1 h2
    by_cases h : pat.isPrefixOf (c :: t)
    · simp only [if_pos h]
      rw [countF_congr pat f1 f2 (t.drop (pat.length - 1))
        (by rw [List.length_drop]; omega) (by rw [List.length_drop]; omega)]
    · simp only [if_neg h]
      rw [countF_congr pat f1 f2 t (by omega) (by omega)]

/-- A text with no occurrence counts zero. -/
theorem pyCount_eq_zero (pat : List Char) (hp : pat ≠ []) :
    ∀ (s : List Char), pyFind pat s 0 = none → pyCount pat s = 0
  | [], _ => by cases pat with
    | nil => exact absurd rfl hp
    | cons p ps => rfl
  | c :: t, h => by
    have hall := (pyFind_eq_none pat (c :: t) 0 hp).mp h
    have h0 : ¬ pat.isPrefixOf (c :: t) := by
      intro hc
      exact hall 0 (Nat.zero_le 0) (by rw [List.drop_zero]; exact List.isPrefixOf_iff_prefix.mp hc)
    have ht : pyFind pat t 0 = none := by
      rw [pyFind_eq_none pat t 0 hp]
      intro q _ hc
      exact hall (q + 1) (by omega) (by rw [List.drop_succ_cons]; exact hc)
    unfold pyCount
    simp only [List.length_cons, countF, if_neg h0]
    exact pyCount_eq_zero pat hp t ht

/-- Python's greedy non-overlapping count: one for the first occurrence, then
count the remainder past it. -/
theorem pyCount_found (pat : List Char) (hp : pat ≠ []) :
    ∀ (s : List Char) (i : Nat), pyFind pat s 0 = some i →
      pyCount pat s = 1 + pyCount pat (s.drop (i + pat.length))
  | [], i, h => by
    exfalso
    unfold pyFind at h
    rw [List.drop_nil] at h
    simp only [findAux, if_neg hp] at h
    exact Option.noConfusion h
  | c :: t, i, h => by
    obtain ⟨n, hn⟩ : ∃ n, pat.length = n + 1 :=
      ⟨pat.length - 1, by have := List.length_pos.mpr hp; omega⟩
    unfold pyFind at h
    rw [List.drop_zero] at h
    by_cases h0 : pat.isPrefixOf (c :: t)
    · simp only [findAux, if_pos h0] at h
      injection h with h
      subst h
      unfold pyCount
      simp only [List.length_cons, countF, if_pos h0, Nat.zero_add]
      rw [Nat.add_comm _ 1]
      congr 1
      have hdrop : (c :: t).drop pat.length = t.drop (pat.length - 1) := by
        rw [hn, List.drop_succ_cons]
        congr 1
      rw [hdrop]
      exact countF_congr pat t.length (t.drop (pat.length - 1)).length _
        (by rw [List.length_drop]; omega) (le_refl _)
    · simp only [findAux, if_neg h0] at h
      rw [findAux_shift] at h
      rcases Option.map_eq_some'.mp h with ⟨i2, hi2, rfl⟩
      have ht : pyFind pat t 0 = some i2 := by
        unfold pyFind
        rw [List.drop_zero]
        exact hi2
      unfold pyCount
      simp only [List.length_cons, countF, if_neg h0]
      have := pyCount_found pat hp t i2 ht
      unfold pyCount at this
      rw [this]
      congr 1
      rw [show i2 + 1 + pat.length = (i2 + pat.length) + 1 from by omega,
        List.drop_succ_cons]

end ConvertTpu

namespace ConvertTpu

/-- `text.find` from an offset in terms of the dropped text. -/
theorem pyFind_drop (pat T : List Char) (b : Nat) :
    pyFind pat T b = (pyFind pat (T.drop b) 0).map (· + b) := by
  unfold pyFind
  rw [List.drop_zero, findAux_shift]

/-- If the window `g` is occurrence-free, the first occurrence in
`g ++ pivot ++ …` is at exactly `g.length`. -/
theorem first_occ_in_window (piv g T2 : List Char) (hP : PivOk piv)
    (hg : pyFind piv g 0 = none) :
    pyFind piv (g ++ (piv ++ T2)) 0 = some g.length := by
  rw [pyFind_eq_some piv _ 0 g.length hP.1]
  have hocc : piv <+: (g ++ (piv ++ T2)).drop g.length := by
    rw [drop_length_append]
    exact List.prefix_append piv T2
  refine ⟨Nat.zero_le _, hocc, ?_⟩
  intro q _ hq hc
  by_cases hfit : q + piv.length ≤ g.length
  · exact (pyFind_eq_none piv g 0 hP.1).mp hg q (Nat.zero_le q)
      (occ_append_split hc hfit)
  · have := occ_no_overlap hP hc hocc hq
    omega

/-- The per-pass `amnt = text.count(pivot)` equals the number of top-level
calls in a sane segment presentation. -/
theorem count_calls (piv : List Char) (hP : PivOk piv) :
    ∀ (segs : List (List Char × List Char)) (g : List Char),
      pyFind piv g 0 = none → SaneTail piv segs →
      pyCount piv (g ++ callsText piv segs) = segs.length
  | [], g, hg, _ => by
    rw [show callsText piv [] = [] from rfl, List.append_nil]
    exact pyCount_eq_zero piv hP.1 g hg
  | (arg, gap) :: rest, g, hg, hS => by
    obtain ⟨hBal, hWin, hMark, hRest⟩ := hS
    have hfirst : pyFind piv (g ++ callsText piv ((arg, gap) :: rest)) 0 =
        some g.length := by
      rw [show callsText piv ((arg, gap) :: rest) =
        piv ++ (arg ++ ')' :: (gap ++ callsText piv rest)) from by simp [callsText]]
      exact first_occ_in_window piv g _ hP hg
    rw [pyCount_found piv hP.1 _ g.length hfirst]
    have hdrop : (g ++ callsText piv ((arg, gap) :: rest)).drop
        (g.length + piv.length) = (arg ++ ')' :: gap) ++ callsText piv rest := by
      rw [show callsText piv ((arg, gap) :: rest) =
        piv ++ (arg ++ ')' :: (gap ++ callsText piv rest)) from by simp [callsText]]
      rw [← List.append_assoc g piv _, ← List.length_append g piv,
        drop_length_append]
      simp
    rw [hdrop, count_calls piv hP rest (arg ++ ')' :: gap) hWin hRest]
    simp [Nat.add_comm]

/-- A scan that breaks inside `u` breaks at the same index in `u ++ v`. -/
theorem scanAux_append (v : List Char) : ∀ (u : List Char) (cnt : Int) (k j : Nat),
    scanAux cnt k u = some j → scanAux cnt k (u ++ v) = some j
  | [], cnt, k, j, h => by simp [scanAux] at h
  | c :: rest, cnt, k, j, h => by
    rw [scanAux_cons] at h
    rw [List.cons_append, scanAux_cons]
    by_cases hc : cntStep cnt c = 0
    · rw [if_pos hc] at h ⊢
      exact h
    · rw [if_neg hc] at h ⊢
      exact scanAux_append v rest (cntStep cnt c) (k + 1) j h

/-- A balanced argument's scan stops at its own close parenthesis, whatever
follows. -/
theorem scan_balanced (arg tail : List Char) (h : BalancedArg arg) :
    scanAux 1 0 (arg ++ ')' :: tail) = some arg.length := by
  have h2 := scanAux_append tail (arg ++ [')']) 1 0 arg.length h
  rw [List.append_assoc, List.singleton_append] at h2
  exact h2

end ConvertTpu

namespace ConvertTpu

/-- The occurrence loop on a sane presentation: starting at cursor `b` with an
occurrence-free window `w` before the first remaining call, each iteration
locates the next call, scans to its matching close parenthesis and inserts the
marker right after it; the loop ends with exactly one marker spliced in after
each call and everything else unchanged. -/
theorem runIters_sane (piv : List Char) (hP : PivOk piv) :
    ∀ (segs : List (List Char × List Char)) (w T : List Char) (b : Nat)
      (kk : Option Nat) (r : Bool),
      T.drop b = w ++ callsText piv segs →
      b ≤ T.length →
      pyFind piv w 0 = none →
      SaneTail piv segs →
      ∃ b2 k2 r2, runIters piv segs.length ⟨T, b, kk, r⟩ =
        .ok ⟨T.take b ++ (w ++ callsPatched piv segs), b2, k2, r2⟩
  | [], w, T, b, kk, r, hT, hb, hw, _ => by
    refine ⟨b, kk, r, ?_⟩
    have hX : T.take b ++ (w ++ callsPatched piv []) = T := by
      rw [show callsPatched piv [] = [] from rfl, List.append_nil]
      rw [show w = T.drop b from by rw [hT]; simp [callsText]]
      exact List.take_append_drop b T
    rw [hX]
    rfl
  | (arg, gap) :: rest, w, T, b, kk, r, hT, hb, hw, hS => by
    obtain ⟨hBal, hWin, hMark, hRest⟩ := hS
    have hCT : callsText piv ((arg, gap) :: rest) =
        piv ++ (arg ++ ')' :: (gap ++ callsText piv rest)) := by simp [callsText]
    have hh := congrArg List.length hT
    rw [List.length_drop, List.length_append] at hh
    have hCTlen : (callsText piv ((arg, gap) :: rest)).length =
        piv.length + arg.length + 1 + gap.length + (callsText piv rest).length := by
      rw [hCT]
      simp [List.length_append, List.length_cons]
      omega
    have hIns : w.length + b + piv.length + arg.length + 1 ≤ T.length := by omega
    have hSub : w.length + b + piv.length ≤ T.length := by omega
    -- (A) the next occurrence is located at b + w.length
    have hfind : pyFind piv T b = some (w.length + b) := by
      rw [pyFind_drop, hT, hCT, first_occ_in_window piv w _ hP hw]
      rfl
    -- (B) the slice after the located opening parenthesis
    have hslice : T.drop (w.length + b + piv.length) =
        arg ++ ')' :: (gap ++ callsText piv rest) := by
      have h1 : T.drop (w.length + b + piv.length) =
          (T.drop b).drop (w.length + piv.length) := by
        rw [List.drop_drop]
        congr 1
        omega
      rw [h1, hT, hCT, ← List.append_assoc w piv _, ← List.length_append w piv]
      exact drop_length_append _ _
    -- (C) the depth scan stops at the call's own close parenthesis
    have hscan : scanAux 1 0 (T.drop (w.length + b + piv.length)) =
        some arg.length := by
      rw [hslice]
      exact scan_balanced arg _ hBal
    -- (D) the text after the insertion offset, and the failing guard
    have hdropIns : T.drop (w.length + b + piv.length + arg.length + 1) =
        gap ++ callsText piv rest := by
      have h1 : T.drop (w.length + b + piv.length + arg.length + 1) =
          (T.drop (w.length + b + piv.length)).drop (arg.length + 1) := by
        rw [List.drop_drop]
        congr 1
      rw [h1, hslice,
        show arg ++ ')' :: (gap ++ callsText piv rest) =
          (arg ++ [')']) ++ (gap ++ callsText piv rest) from by simp,
        show arg.length + 1 = (arg ++ [')']).length from by simp]
      exact drop_length_append _ _
    have hguard : ¬ pyFind insertStr T (w.length + b + piv.length + arg.length + 1) =
        some (w.length + b + piv.length + arg.length + 1) := by
      intro hc
      have hInsNe : insertStr ≠ [] := by decide
      have hpre := ((pyFind_eq_some insertStr T _ _ hInsNe).mp hc).2.1
      rw [hdropIns] at hpre
      exact hMark (List.isPrefixOf_iff_prefix.mpr hpre)
    -- (E) the iteration inserts the marker right after the close parenthesis
    have hstep : stepOcc piv ⟨T, b, kk, r⟩ = .ok
        ⟨T.take (w.length + b + piv.length + arg.length + 1) ++ insertStr ++
          T.drop (w.length + b + piv.length + arg.length + 1),
         w.length + b + piv.length, some arg.length, true⟩ := by
      have hsf := stepOcc_found piv ⟨T, b, kk, r⟩ (w.length + b) arg.length hfind hscan
      dsimp only at hsf
      rw [hsf, if_neg hguard]
    -- (F) the new state matches the induction hypothesis with the window
    --     arg ++ ')' ++ marker ++ gap
    have hA1len : (T.take (w.length + b + piv.length + arg.length + 1)).length =
        w.length + b + piv.length + arg.length + 1 := by
      rw [List.length_take]
      exact min_eq_left hIns
    have hA1drop : (T.take (w.length + b + piv.length + arg.length + 1)).drop
        (w.length + b + piv.length) = arg ++ [')'] := by
      rw [List.drop_take,
        show w.length + b + piv.length + arg.length + 1 - (w.length + b + piv.length) =
          arg.length + 1 from by omega, hslice,
        show arg ++ ')' :: (gap ++ callsText piv rest) =
          (arg ++ [')']) ++ (gap ++ callsText piv rest) from by simp,
        show arg.length + 1 = (arg ++ [')']).length from by simp]
      exact List.take_left _ _
    have hT2drop : (T.take (w.length + b + piv.length + arg.length + 1) ++ insertStr ++
        T.drop (w.length + b + piv.length + arg.length + 1)).drop
          (w.length + b + piv.length) =
        (arg ++ ')' :: (insertStr ++ gap)) ++ callsText piv rest := by
      rw [List.append_assoc, List.drop_append_eq_append_drop, hA1len,
        show w.length + b + piv.length -
          (w.length + b + piv.length + arg.length + 1) = 0 from by omega,
        List.drop_zero, hA1drop, hdropIns]
      simp
    have hT2len : (T.take (w.length + b + piv.length + arg.length + 1) ++ insertStr ++
        T.drop (w.length + b + piv.length + arg.length + 1)).length =
          T.length + insertStr.length := by
      simp only [List.length_append, hA1len, List.length_drop]
      omega
    -- (G) the new window is occurrence-free
    have hw2 : pyFind piv (arg ++ ')' :: (insertStr ++ gap)) 0 = none := by
      rw [pyFind_eq_none piv _ 0 hP.1]
      intro q _ hc
      have hassoc : arg ++ ')' :: (insertStr ++ gap) =
          (arg ++ [')']) ++ (insertStr ++ gap) := by simp
      rw [hassoc] at hc
      rcases (occ_insert_iff piv (arg ++ [')']) gap q hP).mp hc with ⟨hq1, ho⟩ | ⟨hq2, ho⟩
      · have hlift : piv <+: ((arg ++ [')']) ++ gap).drop q := occ_append_left gap q ho
        rw [show (arg ++ [')']) ++ gap = arg ++ ')' :: gap from by simp] at hlift
        exact (pyFind_eq_none piv _ 0 hP.1).mp hWin q (Nat.zero_le q) hlift
      · have hlift := occ_append_right (arg ++ [')'])
          (q - (arg ++ [')']).length - insertStr.length) ho
        rw [show (arg ++ [')']) ++ gap = arg ++ ')' :: gap from by simp] at hlift
        exact (pyFind_eq_none piv _ 0 hP.1).mp hWin _ (Nat.zero_le _) hlift
    -- (H) induction and reassembly
    obtain ⟨b2, k2, r2, hIH⟩ := runIters_sane piv hP rest
      (arg ++ ')' :: (insertStr ++ gap))
      (T.take (w.length + b + piv.length + arg.length + 1) ++ insertStr ++
        T.drop (w.length + b + piv.length + arg.length + 1))
      (w.length + b + piv.length) (some arg.length) true
      hT2drop (by rw [hT2len]; omega) hw2 hRest
    refine ⟨b2, k2, r2, ?_⟩
    rw [show ((arg, gap) :: rest).length = rest.length + 1 from rfl]
    show (stepOcc piv ⟨T, b, kk, r⟩ >>= runIters piv rest.length) = _
    rw [hstep]
    show runIters piv rest.length _ = _
    rw [hIH]
    have htake2 : (T.take (w.length + b + piv.length + arg.length + 1) ++ insertStr ++
        T.drop (w.length + b + piv.length + arg.length + 1)).take
          (w.length + b + piv.length) = T.take (w.length + b + piv.length) := by
      rw [List.append_assoc, List.take_append_eq_append_take, hA1len,
        show w.length + b + piv.length -
          (w.length + b + piv.length + arg.length + 1) = 0 from by omega,
        List.take_zero, List.append_nil, List.take_take,
        min_eq_left (by omega : w.length + b + piv.length ≤
          w.length + b + piv.length + arg.length + 1)]
    have htakeSub : T.take (w.length + b + piv.length) =
        T.take b ++ (w ++ piv) := by
      rw [show w.length + b + piv.length = b + (w.length + piv.length) from by omega,
        List.take_add, hT, hCT, ← List.append_assoc w piv _,
        ← List.length_append w piv, List.take_left]
    rw [htake2, htakeSub]
    have htext : T.take b ++ (w ++ piv) ++
        ((arg ++ ')' :: (insertStr ++ gap)) ++ callsPatched piv rest) =
        T.take b ++ (w ++ callsPatched piv ((arg, gap) :: rest)) := by
      simp [callsPatched]
    rw [htext]

end ConvertTpu

namespace ConvertTpu

/-- **C4 (amended)**: on a text presented as `N` non-overlapping top-level
calls to a target name with balanced arguments, occurrence-free windows
between the calls, and no marker already following a call, the per-name pass
runs exactly `N = text.count(pivot)` iterations and inserts the marker at
exactly the `N` positions immediately following each call's bracket-matched
closing parenthesis, leaving everything else unchanged; each successful
iteration resumes the search at the located index plus the pivot length, i.e.
strictly after the previously found opening-parenthesis offset, so the calls
are processed once each, in left-to-right order.  (A call already followed by
the marker is skipped, so a pre-patched text receives fewer than `N`
insertions — see the counterexample.)  Both concrete pivots satisfy the
`PivOk` side conditions. -/
theorem pass_inserts_marker_after_each_call :
    (∀ (name g : List Char) (segs : List (List Char × List Char))
        (s0 : Nat) (kk : Option Nat) (r : Bool),
      PivOk (pivotOf name) →
      pyFind (pivotOf name) g 0 = none →
      SaneTail (pivotOf name) segs →
      ∃ b2 k2 r2, namePass name ⟨g ++ callsText (pivotOf name) segs, s0, kk, r⟩ =
        .ok ⟨g ++ callsPatched (pivotOf name) segs, b2, k2, r2⟩) ∧
    (∀ piv st st2, stepOcc piv st = .ok st2 →
      ∃ idx, pyFind piv st.text st.subject = some idx ∧
        st2.subject = idx + piv.length) ∧
    PivOk viewPivot ∧ PivOk reshapePivot := by
  refine ⟨?_, ?_, by decide, by decide⟩
  · intro name g segs s0 kk r hP hg hS
    unfold namePass
    dsimp only
    rw [count_calls (pivotOf name) hP segs g hg hS]
    obtain ⟨b2, k2, r2, hrun⟩ := runIters_sane (pivotOf name) hP segs g
      (g ++ callsText (pivotOf name) segs) 0 kk r (by rw [List.drop_zero])
      (Nat.zero_le _) hg hS
    refine ⟨b2, k2, r2, ?_⟩
    rw [hrun, List.take_zero, List.nil_append]
  · intro piv st st2 hstep
    rcases h1 : pyFind piv st.text st.subject with _ | idx
    · simp only [stepOcc, h1] at hstep
      exact absurd hstep (by simp)
    · refine ⟨idx, rfl, ?_⟩
      simp only [stepOcc, h1] at hstep
      rcases h2 : scanAux 1 0 (List.drop (idx + piv.length) st.text) with _ | k
      · rcases h3 : (List.drop (idx + piv.length) st.text).isEmpty with _ | _
        · simp only [h2, h3, Bool.false_eq_true, if_false] at hstep
          split_ifs at hstep <;> (injection hstep with h; rw [← h])
        · simp only [h2, h3, eq_self_iff_true, if_true] at hstep
          rcases h4 : st.lastK with _ | k2
          · simp only [h4] at hstep
            exact absurd hstep (by simp)
          · simp only [h4] at hstep
            split_ifs at hstep <;> (injection hstep with h; rw [← h])
      · simp only [h2] at hstep
        split_ifs at hstep <;> (injection hstep with h; rw [← h])

/-- Witness for C4's amended theorem: a fresh text with two top-level `view`
calls receives exactly two markers, each right after its call. -/
theorem pass_inserts_marker_witness :
    (namePass "view".data ⟨"a.view(1) .view(2)".data, 0, none, false⟩).map St.text =
      .ok "a.view(1).contiguous() .view(2).contiguous()".data := by
  obtain ⟨b2, k2, r2, h⟩ := pass_inserts_marker_after_each_call.1 "view".data "a".data
    [("1".data, " ".data), ("2".data, [])] 0 none false (by decide) (by decide)
    (by decide)
  have ht : ("a".data ++ callsText (pivotOf "view".data)
      [("1".data, " ".data), ("2".data, [])]) = "a.view(1) .view(2)".data := by rfl
  rw [← ht, h]
  rfl

end ConvertTpu

namespace ConvertTpu

/-- Splicing the marker between a call's close parenthesis and its gap keeps
the window occurrence-free. -/
theorem window_marked_free (piv arg gap : List Char) (hP : PivOk piv)
    (hWin : pyFind piv (arg ++ ')' :: gap) 0 = none) :
    pyFind piv (arg ++ ')' :: (insertStr ++ gap)) 0 = none := by
  rw [pyFind_eq_none piv _ 0 hP.1]
  intro q _ hc
  have hassoc : arg ++ ')' :: (insertStr ++ gap) =
      (arg ++ [')']) ++ (insertStr ++ gap) := by simp
  rw [hassoc] at hc
  rcases (occ_insert_iff piv (arg ++ [')']) gap q hP).mp hc with ⟨hq1, ho⟩ | ⟨hq2, ho⟩
  · have hlift : piv <+: ((arg ++ [')']) ++ gap).drop q := occ_append_left gap q ho
    rw [show (arg ++ [')']) ++ gap = arg ++ ')' :: gap from by simp] at hlift
    exact (pyFind_eq_none piv _ 0 hP.1).mp hWin q (Nat.zero_le q) hlift
  · have hlift := occ_append_right (arg ++ [')'])
      (q - (arg ++ [')']).length - insertStr.length) ho
    rw [show (arg ++ [')']) ++ gap = arg ++ ')' :: gap from by simp] at hlift
    exact (pyFind_eq_none piv _ 0 hP.1).mp hWin _ (Nat.zero_le _) hlift

/-- `text.count(pivot)` on an already patched sane presentation still counts
one per call. -/
theorem count_calls_patched (piv : List Char) (hP : PivOk piv) :
    ∀ (segs : List (List Char × List Char)) (g : List Char),
      pyFind piv g 0 = none → SaneTail piv segs →
      pyCount piv (g ++ callsPatched piv segs) = segs.length
  | [], g, hg, _ => by
    rw [show callsPatched piv [] = [] from rfl, List.append_nil]
    exact pyCount_eq_zero piv hP.1 g hg
  | (arg, gap) :: rest, g, hg, hS => by
    obtain ⟨hBal, hWin, hMark, hRest⟩ := hS
    have hCP : callsPatched piv ((arg, gap) :: rest) =
        piv ++ (arg ++ ')' :: (insertStr ++ (gap ++ callsPatched piv rest))) := by
      simp [callsPatched]
    have hfirst : pyFind piv (g ++ callsPatched piv ((arg, gap) :: rest)) 0 =
        some g.length := by
      rw [hCP]
      exact first_occ_in_window piv g _ hP hg
    rw [pyCount_found piv hP.1 _ g.length hfirst]
    have hdrop : (g ++ callsPatched piv ((arg, gap) :: rest)).drop
        (g.length + piv.length) =
        (arg ++ ')' :: (insertStr ++ gap)) ++ callsPatched piv rest := by
      rw [hCP, ← List.append_assoc g piv _, ← List.length_append g piv,
        drop_length_append]
      simp
    rw [hdrop, count_calls_patched piv hP rest (arg ++ ')' :: (insertStr ++ gap))
      (window_marked_free piv arg gap hP hWin) hRest]
    simp [Nat.add_comm]

/-- A pass over an already patched sane presentation fires the guard on every
call: no insertion happens and the text comes back unchanged (the `rep` flag
keeps its incoming value). -/
theorem runIters_skip (piv : List Char) (hP : PivOk piv) :
    ∀ (segs : List (List Char × List Char)) (w T : List Char) (b : Nat)
      (kk : Option Nat) (r : Bool),
      T.drop b = w ++ callsPatched piv segs →
      b ≤ T.length →
      pyFind piv w 0 = none →
      SaneTail piv segs →
      ∃ b2 k2, runIters piv segs.length ⟨T, b, kk, r⟩ = .ok ⟨T, b2, k2, r⟩
  | [], _, T, b, kk, r, _, _, _, _ => ⟨b, kk, rfl⟩
  | (arg, gap) :: rest, w, T, b, kk, r, hT, hb, hw, hS => by
    obtain ⟨hBal, hWin, hMark, hRest⟩ := hS
    have hCP : callsPatched piv ((arg, gap) :: rest) =
        piv ++ (arg ++ ')' :: (insertStr ++ (gap ++ callsPatched piv rest))) := by
      simp [callsPatched]
    have hh := congrArg List.length hT
    rw [List.length_drop, List.length_append] at hh
    have hCPlen : (callsPatched piv ((arg, gap) :: rest)).length =
        piv.length + arg.length + 1 + insertStr.length + gap.length +
          (callsPatched piv rest).length := by
      rw [hCP]
      simp [List.length_append, List.length_cons]
      omega
    have hSub : w.length + b + piv.length ≤ T.length := by omega
    have hfind : pyFind piv T b = some (w.length + b) := by
      rw [pyFind_drop, hT, hCP, first_occ_in_window piv w _ hP hw]
      rfl
    have hslice : T.drop (w.length + b + piv.length) =
        arg ++ ')' :: (insertStr ++ (gap ++ callsPatched piv rest)) := by
      have h1 : T.drop (w.length + b + piv.length) =
          (T.drop b).drop (w.length + piv.length) := by
        rw [List.drop_drop]
        congr 1
        omega
      rw [h1, hT, hCP, ← List.append_assoc w piv _, ← List.length_append w piv]
      exact drop_length_append _ _
    have hscan : scanAux 1 0 (T.drop (w.length + b + piv.length)) =
        some arg.length := by
      rw [hslice]
      exact scan_balanced arg _ hBal
    have hdropIns : T.drop (w.length + b + piv.length + arg.length + 1) =
        insertStr ++ (gap ++ callsPatched piv rest) := by
      have h1 : T.drop (w.length + b + piv.length + arg.length + 1) =
          (T.drop (w.length + b + piv.length)).drop (arg.length + 1) := by
        rw [List.drop_drop]
        congr 1
      rw [h1, hslice,
        show arg ++ ')' :: (insertStr ++ (gap ++ callsPatched piv rest)) =
          (arg ++ [')']) ++ (insertStr ++ (gap ++ callsPatched piv rest)) from by simp,
        show arg.length + 1 = (arg ++ [')']).length from by simp]
      exact drop_length_append _ _
    have hguard : pyFind insertStr T (w.length + b + piv.length + arg.length + 1) =
        some (w.length + b + piv.length + arg.length + 1) := by
      have hInsNe : insertStr ≠ [] := by decide
      rw [pyFind_eq_some insertStr T _ _ hInsNe]
      refine ⟨le_refl _, ?_, ?_⟩
      · rw [hdropIns]
        exact List.prefix_append insertStr _
      · intro q hq1 hq2
        omega
    have hstep : stepOcc piv ⟨T, b, kk, r⟩ =
        .ok ⟨T, w.length + b + piv.length, some arg.length, r⟩ := by
      have hsf := stepOcc_found piv ⟨T, b, kk, r⟩ (w.length + b) arg.length hfind hscan
      dsimp only at hsf
      rw [hsf, if_pos hguard]
    have hT2 : T.drop (w.length + b + piv.length) =
        (arg ++ ')' :: (insertStr ++ gap)) ++ callsPatched piv rest := by
      rw [hslice]
      simp
    obtain ⟨b2, k2, hIH⟩ := runIters_skip piv hP rest
      (arg ++ ')' :: (insertStr ++ gap)) T (w.length + b + piv.length)
      (some arg.length) r hT2 hSub (window_marked_free piv arg gap hP hWin) hRest
    refine ⟨b2, k2, ?_⟩
    rw [show ((arg, gap) :: rest).length = rest.length + 1 from rfl]
    show (stepOcc piv ⟨T, b, kk, r⟩ >>= runIters piv rest.length) = _
    rw [hstep]
    show runIters piv rest.length _ = _
    exact hIH

end ConvertTpu

namespace ConvertTpu

/-- **C2 (amended)**: before inserting, the patcher checks whether the marker
already begins at exactly the computed offset and skips the insertion if so:
a call already followed by the marker is never patched again; a whole name
pass over an already patched sane text fires the guard on every call and
returns the text unchanged, and on the spec's well-formed scenario a second
full run returns the text unchanged.  (The patcher is nevertheless not
idempotent on every text: on unbalanced input a second run appends a further
marker — see the counterexample.) -/
theorem marker_guard_skips_insertion :
    (∀ piv st idx k,
      pyFind piv st.text st.subject = some idx →
      scanAux 1 0 (st.text.drop (idx + piv.length)) = some k →
      pyFind insertStr st.text (idx + piv.length + k + 1) =
        some (idx + piv.length + k + 1) →
      stepOcc piv st = .ok ⟨st.text, idx + piv.length, some k, st.rep⟩) ∧
    (∀ (name g : List Char) (segs : List (List Char × List Char))
        (s0 : Nat) (kk : Option Nat) (r : Bool),
      PivOk (pivotOf name) →
      pyFind (pivotOf name) g 0 = none →
      SaneTail (pivotOf name) segs →
      ∃ b2 k2, namePass name ⟨g ++ callsPatched (pivotOf name) segs, s0, kk, r⟩ =
        .ok ⟨g ++ callsPatched (pivotOf name) segs, b2, k2, r⟩) ∧
    patchText "x.view(1,2).sum(1)".data =
      .ok "x.reshape(1,2).contiguous().sum(1)".data ∧
    patchText "x.reshape(1,2).contiguous().sum(1)".data =
      .ok "x.reshape(1,2).contiguous().sum(1)".data := by
  refine ⟨?_, ?_, rfl, rfl⟩
  · intro piv st idx k h1 h2 h3
    rw [stepOcc_found piv st idx k h1 h2, if_pos h3]
  · intro name g segs s0 kk r hP hg hS
    unfold namePass
    dsimp only
    rw [count_calls_patched (pivotOf name) hP segs g hg hS]
    exact runIters_skip (pivotOf name) hP segs g
      (g ++ callsPatched (pivotOf name) segs) 0 kk r (by rw [List.drop_zero])
      (Nat.zero_le _) hg hS

/-- Witness for C2's amended theorem: the guard fires on an already patched
call and the text is returned unchanged, and a whole pass over a patched
two-call text changes nothing. -/
theorem marker_guard_skips_insertion_witness :
    (stepOcc reshapePivot ⟨"x.reshape(1,2).contiguous().sum(1)".data, 0, none, false⟩ =
      .ok ⟨"x.reshape(1,2).contiguous().sum(1)".data, 10, some 3, false⟩) ∧
    (namePass "view".data
        ⟨"a.view(1).contiguous() .view(2).contiguous()".data, 0, none, false⟩).map
      St.text = .ok "a.view(1).contiguous() .view(2).contiguous()".data := by
  constructor
  · have h := (marker_guard_skips_insertion).1 reshapePivot
      ⟨"x.reshape(1,2).contiguous().sum(1)".data, 0, none, false⟩ 1 3 rfl rfl rfl
    rw [h]
    rfl
  · obtain ⟨b2, k2, h⟩ := (marker_guard_skips_insertion).2.1 "view".data "a".data
      [("1".data, " ".data), ("2".data, [])] 0 none false (by decide) (by decide)
      (by decide)
    have ht : ("a".data ++ callsPatched (pivotOf "view".data)
        [("1".data, " ".data), ("2".data, [])]) =
        "a.view(1).contiguous() .view(2).contiguous()".data := by rfl
    rw [← ht, h]
    rfl

end ConvertTpu
